import Mathlib

/-!
# Verification of `thready::thread_pool` (src/include/thread_pool.hpp)

A shallow embedding of the `thready` work-stealing thread-pool header and of
the components its design document specifies.  The header itself is a
declaration stub: only `emplace_task` and `enqueue_task` carry bodies, so
those two are embedded directly from the source, while the Deque, the Worker
loop and the Pool Controller lifecycle are modelled from the specification
text (each such definition says so in its doc comment).
-/

namespace Thready

/-- A bound task, the embedding of
`std::function<std::remove_reference_t<F>>(std::bind(func, args...))`:
the callable `func` together with the argument pack `args` it was bound to.
`F` is the callable type, `A` the (tupled) argument-pack type. -/
structure BoundTask (F A : Type) where
  func : F
  args : A
deriving DecidableEq, Repr

/-- The embedding of `thready::thread_pool`'s data members
(src/include/thread_pool.hpp lines 29-33): the two `const` bounds
`min_threads_` and `max_threads_`, the shared `std::queue<tasks> queue`
(modelled as a list whose head is the queue front and whose last element is
the back), and the `std::array<std::thread, max_threads> pool` of worker
threads (modelled as a list of thread handles). -/
structure thread_pool (F A : Type) where
  min_threads_ : Nat
  max_threads_ : Nat
  queue : List (BoundTask F A)
  pool : List Nat
deriving DecidableEq, Repr

variable {F A : Type}

/-- `thread_pool::emplace_task` (src lines 57-62): binds `func` to `args`
into a `std::function` and constructs the resulting variant in place at the
back of the shared queue via `queue.emplace(...)`. -/
def emplace_task (p : thread_pool F A) (func : F) (args : A) :
    thread_pool F A :=
  { p with queue := p.queue ++ [BoundTask.mk func args] }

/-- `thread_pool::enqueue_task` (src lines 64-71): first constructs the
bound `std::function` object `task`, then copies it to the back of the
shared queue via `queue.push(task)`. -/
def enqueue_task (p : thread_pool F A) (func : F) (args : A) :
    thread_pool F A :=
  let task : BoundTask F A := BoundTask.mk func args
  { p with queue := p.queue ++ [task] }

/-! ## Per-worker Deque

Modelled from the spec: the per-worker double-ended queue of §4.2 is absent
from src/ (the stub only declares a shared `std::queue`); the spec fixes its
behaviour: `push_owner`/`pop_owner` act on the owner end (modelled as the
back of the list), `steal` removes from the opposite, steal end (the front),
and each operation is atomic at its linearization point. -/

/-- Modelled from the spec: `Deque::push_owner(task)` — amortized O(1) push
at the owner end (the back). -/
def push_owner (d : List τ) (t : τ) : List τ :=
  d ++ [t]

/-- Modelled from the spec: `Deque::pop_owner()` — LIFO pop from the owner
end (the back); returns empty if the deque is empty; never blocks. -/
def pop_owner : List τ → Option τ × List τ
  | [] => (none, [])
  | t :: ts => ((t :: ts).getLast?, (t :: ts).dropLast)

/-- Modelled from the spec: `Deque::steal()` — FIFO pop from the steal end
(the front); returns empty if the deque is empty. -/
def steal : List τ → Option τ × List τ
  | [] => (none, [])
  | t :: ts => (some t, ts)

/-- One atomic Deque operation, as seen at its linearization point:
either the owner popping its own end or a thief stealing the opposite end. -/
inductive DequeOp where
  | popOwner : DequeOp
  | stealOp : DequeOp
deriving DecidableEq, Repr

/-- Apply one atomic Deque operation, returning the handed-out task
(if any) and the remaining deque. -/
def applyOp : DequeOp → List τ → Option τ × List τ
  | DequeOp.popOwner, d => pop_owner d
  | DequeOp.stealOp, d => steal d

/-- Run a sequence of atomic Deque operations (one interleaving of the
owner's pops with thieves' steals), collecting every result. -/
def runOps : List DequeOp → List τ → List (Option τ) × List τ
  | [], d => ([], d)
  | op :: ops, d =>
    let r := applyOp op d
    let rest := runOps ops r.2
    (r.1 :: rest.1, rest.2)

/-- The tasks actually handed out to callers along an interleaving. -/
def handedOut (ops : List DequeOp) (d : List τ) : List τ :=
  (runOps ops d).1.filterMap id

/-- The tasks remaining in the deque after an interleaving. -/
def remaining (ops : List DequeOp) (d : List τ) : List τ :=
  (runOps ops d).2

/-- Popping repeatedly from the owner end until empty. -/
def popAllOwner : List τ → List τ
  | [] => []
  | t :: ts => (t :: ts).getLast (by simp) :: popAllOwner (t :: ts).dropLast
  termination_by d => d.length
  decreasing_by
    simp [List.length_dropLast]

/-! ## Pool Controller lifecycle

Modelled from the spec: the constructor, destructor, `create_thread` and
`destroy_thread` of `thread_pool` are bare declarations in src/ (lines
39-44); their behaviour is fixed by §4.4 and §7 of the design document. -/

/-- Modelled from the spec: the error taxonomy of §7 relevant to the
controller: `ConfigurationError` (invalid bounds at construction, fatal) and
`CapacityExhausted` (`create_thread` beyond `max_threads`, non-fatal). -/
inductive PoolError where
  | ConfigurationError : PoolError
  | CapacityExhausted : PoolError
deriving DecidableEq, Repr

/-- Modelled from the spec: the Pool Controller's shared coordination state
(§3): the `min_threads`/`max_threads` bounds, the count of currently live
Workers, the monotonically advancing shutdown flag, and the queued tasks
(task ids) not yet consumed by a Worker, together with the record of already
executed and of discarded task ids used to phrase observable effects. -/
structure PoolCtrl where
  min_threads : Nat
  max_threads : Nat
  workers : Nat
  shutdownFlag : Bool
  pending : List Nat
  executed : List Nat
  dropped : List Nat
deriving DecidableEq, Repr

/-- Modelled from the spec: `construct(min_threads, max_threads)` (§4.4) —
validates `0 < min_threads ≤ max_threads`, failing with a configuration
error otherwise (the pool is never created), and spawns `min_threads`
Workers immediately. -/
def construct (m M : Nat) : Except PoolError PoolCtrl :=
  if 0 < m ∧ m ≤ M then
    Except.ok (PoolCtrl.mk m M m false [] [] [])
  else
    Except.error PoolError.ConfigurationError

/-- Modelled from the spec: `create_thread()` (§4.4) — spawns one additional
Worker if the current count is `< max_threads`; otherwise a no-op that
reports the non-fatal `CapacityExhausted` condition. -/
def create_thread (p : PoolCtrl) : PoolCtrl × Option PoolError :=
  if p.workers < p.max_threads then
    ({ p with workers := p.workers + 1 }, none)
  else
    (p, some PoolError.CapacityExhausted)

/-- Modelled from the spec: `destroy_thread()` (§4.4) — signals one idle
Worker to stop, only if the current count is `> min_threads` (its residual
deque contents are migrated to a live peer, so the pending tasks are kept);
no-op otherwise. -/
def destroy_thread (p : PoolCtrl) : PoolCtrl :=
  if p.min_threads < p.workers then
    { p with workers := p.workers - 1 }
  else
    p

/-- Modelled from the spec: `submit(task)` (§4.4) — places the task on some
live Worker's deque; observably, the task id joins the pool's pending set. -/
def submit (p : PoolCtrl) (t : Nat) : PoolCtrl :=
  { p with pending := p.pending ++ [t] }

/-- Modelled from the spec: one Worker consuming the oldest pending task:
it is removed from the pending set and recorded as executed. -/
def consumeOne (p : PoolCtrl) : PoolCtrl :=
  match p.pending with
  | [] => p
  | t :: ts => { p with pending := ts, executed := p.executed ++ [t] }

/-- Modelled from the spec: `shutdown()` (§4.4, §6, §7) — sets the global
shutdown flag, signals every Worker to Stopping and joins all threads
(0 live Workers afterwards); every already-queued task has by then either
completed or been explicitly discarded per the configured shutdown policy
(the design of §9 recommends drain-and-execute, so completion is taken). -/
def shutdown (p : PoolCtrl) : PoolCtrl :=
  { p with workers := 0, shutdownFlag := true,
           pending := [], executed := p.executed ++ p.pending }

/-- The controller operations available while the pool is running. -/
inductive PoolOp where
  | createThread : PoolOp
  | destroyThread : PoolOp
  | submitOp (t : Nat) : PoolOp
  | consumeOp : PoolOp
deriving DecidableEq, Repr

/-- Apply one running-phase controller operation (the reported capacity
condition of `create_thread` does not change the state). -/
def applyPoolOp (p : PoolCtrl) : PoolOp → PoolCtrl
  | PoolOp.createThread => (create_thread p).1
  | PoolOp.destroyThread => destroy_thread p
  | PoolOp.submitOp t => submit p t
  | PoolOp.consumeOp => consumeOne p

/-- Run a sequence of running-phase controller operations. -/
def runCtrl (p : PoolCtrl) : List PoolOp → PoolCtrl
  | [] => p
  | op :: ops => runCtrl (applyPoolOp p op) ops

/-! ## Task execution traces

Modelled from the spec: `execute_task` is a bare declaration in src/ (lines
35-36); §3's Task invariant and §8's first testable property fix the
execution discipline, which we state over event traces of the pool's life. -/

/-- The state of a pool's task ledger along a lifecycle trace: the tasks
still queued, the tasks already executed, the tasks dropped at destruction,
and whether the pool has been destroyed. -/
structure ExecState where
  queue : List Nat
  executed : List Nat
  dropped : List Nat
  destroyed : Bool
deriving DecidableEq, Repr

/-- The empty ledger of a freshly constructed pool. -/
def ExecState.init : ExecState :=
  ExecState.mk [] [] [] false

/-- One event in a pool lifecycle: a submission, one Worker executing one
queued task, or the destruction of the pool. -/
inductive RunEvent where
  | submitEv (t : Nat) : RunEvent
  | execEv : RunEvent
  | destroyEv : RunEvent
deriving DecidableEq, Repr

/-- Modelled from the spec: the effect of one lifecycle event. A submission
is accepted only while the pool is alive; a Worker executes the oldest
queued task; destruction drops every still-queued task, which is never
executed (§3 invariant, §7). -/
def stepEvent (s : ExecState) : RunEvent → ExecState
  | RunEvent.submitEv t =>
    if s.destroyed then s else { s with queue := s.queue ++ [t] }
  | RunEvent.execEv =>
    if s.destroyed then s else
      match s.queue with
      | [] => s
      | t :: ts => { s with queue := ts, executed := s.executed ++ [t] }
  | RunEvent.destroyEv =>
    { s with destroyed := true, queue := [], dropped := s.dropped ++ s.queue }

/-- Run a lifecycle trace from a given ledger state. -/
def runEventsFrom (s : ExecState) : List RunEvent → ExecState
  | [] => s
  | e :: evs => runEventsFrom (stepEvent s e) evs

/-- Run a lifecycle trace from the freshly constructed pool. -/
def runEvents (evs : List RunEvent) : ExecState :=
  runEventsFrom ExecState.init evs

/-- Every task id a ledger state accounts for: executed, still queued, or
dropped at destruction. -/
def ledger (s : ExecState) : List Nat :=
  s.executed ++ s.queue ++ s.dropped

/-- The task ids submitted along a trace. -/
def submittedOf : List RunEvent → List Nat
  | [] => []
  | RunEvent.submitEv t :: evs => t :: submittedOf evs
  | _ :: evs => submittedOf evs

/-! ## Worker loop and task failures

Modelled from the spec: the Worker run loop and the failure containment of
`execute_task` (§4.1, §4.3, §7) have no bodies in src/. A task body is
modelled by its outcome on invocation: normal return or a raised error. -/

/-- Modelled from the spec: the observable outcome of invoking one task's
callable: it returns normally or raises an error (carrying a payload). -/
inductive TaskOutcome where
  | ok : TaskOutcome
  | err (e : Nat) : TaskOutcome
deriving DecidableEq, Repr

/-- The observable state of one Worker thread: whether its thread is still
live, how many task invocations it has completed, and the pool-wide failure
channel's received reports. -/
structure WorkerState where
  alive : Bool
  invoked : Nat
  reports : List Nat
deriving DecidableEq, Repr

/-- Modelled from the spec: `execute_task` at the Task/Worker boundary
(§4.1): the callable is invoked; an error it raises is caught there and
reported through the pool-wide failure channel, never rethrown into the
Worker loop — the Worker thread stays alive either way. -/
def execute_task (w : WorkerState) (t : TaskOutcome) : WorkerState :=
  match t with
  | TaskOutcome.ok => { w with invoked := w.invoked + 1 }
  | TaskOutcome.err e =>
    { w with invoked := w.invoked + 1, reports := w.reports ++ [e] }

/-- The Worker loop processing a sequence of tasks in order. -/
def runWorker (w : WorkerState) : List TaskOutcome → WorkerState
  | [] => w
  | t :: ts => runWorker (execute_task w t) ts

/-- The error payloads among a sequence of task outcomes. -/
def errorsOf : List TaskOutcome → List Nat
  | [] => []
  | TaskOutcome.ok :: ts => errorsOf ts
  | TaskOutcome.err e :: ts => e :: errorsOf ts

/-! ## Theorems -/

theorem pop_owner_concat (d : List τ) (t : τ) :
    pop_owner (d ++ [t]) = (some t, d) := by
  cases d with
  | nil => simp [pop_owner]
  | cons x xs =>
    show pop_owner ((x :: xs) ++ [t]) = (some t, x :: xs)
    rw [List.cons_append, pop_owner, ← List.cons_append,
        List.getLast?_concat, List.dropLast_concat]

theorem popAllOwner_reverse (l : List τ) : popAllOwner l = l.reverse := by
  induction l using popAllOwner.induct with
  | case1 => rw [popAllOwner, List.reverse_nil]
  | case2 t ts ih =>
    rw [popAllOwner, ih]
    conv_rhs => rw [← List.dropLast_append_getLast (List.cons_ne_nil t ts)]
    simp [List.reverse_append]

theorem foldl_push_owner (d l : List τ) :
    List.foldl push_owner d l = d ++ l := by
  induction l generalizing d with
  | nil => simp
  | cons t ts ih =>
    rw [List.foldl_cons, ih]
    simp [push_owner]

/-- C5: for every sequence of owner-end pushes and owner-end pops on one
Worker's own task container, pops return Tasks in LIFO order relative to
the pushes (the pop immediately following a push returns exactly the pushed
task, and draining a container built from a push sequence returns the
reverse of that sequence), and `pop_owner` on an empty container returns
empty without blocking. -/
theorem deque_owner_lifo (d : List τ) (t : τ) (l : List τ) :
    pop_owner (push_owner d t) = (some t, d)
    ∧ popAllOwner (List.foldl push_owner [] l) = l.reverse
    ∧ pop_owner ([] : List τ) = (none, []) := by
  refine ⟨pop_owner_concat d t, ?_, rfl⟩
  rw [foldl_push_owner, List.nil_append, popAllOwner_reverse]

theorem applyOp_perm (op : DequeOp) (d : List τ) :
    ((applyOp op d).1.toList ++ (applyOp op d).2).Perm d := by
  cases op with
  | stealOp =>
    cases d with
    | nil => simp [applyOp, steal]
    | cons t ts => simp [applyOp, steal]
  | popOwner =>
    cases d with
    | nil => simp [applyOp, pop_owner]
    | cons t ts =>
      simp only [applyOp, pop_owner]
      rw [List.getLast?_eq_getLast (t :: ts) (List.cons_ne_nil t ts)]
      simp only [Option.toList_some]
      refine List.Perm.trans List.perm_append_comm ?_
      rw [List.dropLast_append_getLast]

theorem handedOut_cons (op : DequeOp) (ops : List DequeOp) (d : List τ) :
    handedOut (op :: ops) d
      = (applyOp op d).1.toList ++ handedOut ops (applyOp op d).2 := by
  simp only [handedOut, runOps, List.filterMap_cons]
  cases h : (applyOp op d).1 <;> simp [h]

theorem handedOut_remaining_perm (ops : List DequeOp) (d : List τ) :
    (handedOut ops d ++ remaining ops d).Perm d := by
  induction ops generalizing d with
  | nil => simp [handedOut, remaining, runOps]
  | cons op ops ih =>
    rw [handedOut_cons,
        show remaining (op :: ops) d = remaining ops (applyOp op d).2 from rfl,
        List.append_assoc]
    exact List.Perm.trans
      (List.Perm.append_left _ (ih (applyOp op d).2)) (applyOp_perm op d)

/-- C2: for every Deque holding distinct Tasks and every interleaving of
`steal()` operations with `pop_owner()` operations (each atomic at its
linearization point), a Task handed out by one operation is never also
handed out by another, and no handed-out Task is still in the deque; when
owner and thief race for the last element, whichever operation linearizes
first wins and the loser observes empty, never a duplicate. -/
theorem steal_pop_owner_exclusive (d : List τ) (ops : List DequeOp)
    (hd : d.Nodup) (t : τ) (o1 o2 : DequeOp) :
    (handedOut ops d).Nodup
    ∧ (∀ x ∈ handedOut ops d, x ∉ remaining ops d)
    ∧ (runOps [o1, o2] [t]).1 = [some t, none] := by
  have hnd : (handedOut ops d ++ remaining ops d).Nodup :=
    (handedOut_remaining_perm ops d).nodup_iff.mpr hd
  refine ⟨hnd.of_append_left, ?_, ?_⟩
  · intro x hx
    exact List.disjoint_of_nodup_append hnd hx
  · cases o1 <;> cases o2 <;> simp [runOps, applyOp, pop_owner, steal]

/-- Witness for C2: three distinct tasks, a steal interleaved with an
owner pop, and the two orders of the last-element race on a singleton. -/
theorem steal_pop_owner_exclusive_witness :
    (handedOut [DequeOp.stealOp, DequeOp.popOwner] [0, 1, 2]).Nodup
    ∧ (∀ x ∈ handedOut [DequeOp.stealOp, DequeOp.popOwner] [0, 1, 2],
        x ∉ remaining [DequeOp.stealOp, DequeOp.popOwner] [0, 1, 2])
    ∧ (runOps [DequeOp.popOwner, DequeOp.stealOp] [(5 : Nat)]).1
        = [some 5, none] :=
  steal_pop_owner_exclusive [0, 1, 2] [DequeOp.stealOp, DequeOp.popOwner]
    (by decide) 5 DequeOp.popOwner DequeOp.stealOp

theorem stepEvent_count (s : ExecState) (e : RunEvent) (t : Nat) :
    (ledger (stepEvent s e)).count t
      ≤ (ledger s).count t + (submittedOf [e]).count t := by
  cases e with
  | submitEv u =>
    by_cases h : s.destroyed
    · simp [stepEvent, h, submittedOf, ledger]
    · simp only [stepEvent, h, if_neg, ite_false, submittedOf, ledger,
        List.count_append, Bool.false_eq_true]
      by_cases ht : u = t <;> simp [List.count_cons, List.count_nil, ht] <;>
        omega
  | execEv =>
    by_cases h : s.destroyed
    · simp [stepEvent, h, submittedOf, ledger]
    · cases hq : s.queue with
      | nil => simp [stepEvent, h, hq, submittedOf, ledger]
      | cons x xs =>
        simp only [stepEvent, h, Bool.false_eq_true, ite_false, hq,
          submittedOf, ledger, List.count_append, List.count_cons,
          List.count_nil]
        omega
  | destroyEv =>
    simp only [stepEvent, submittedOf, ledger, List.count_append,
      List.count_nil]
    omega

theorem runEventsFrom_count (evs : List RunEvent) (s : ExecState) (t : Nat) :
    (ledger (runEventsFrom s evs)).count t
      ≤ (ledger s).count t + (submittedOf evs).count t := by
  induction evs generalizing s with
  | nil => simp [runEventsFrom, submittedOf]
  | cons e evs ih =>
    have h1 := stepEvent_count s e t
    have h2 := ih (stepEvent s e)
    have hrw : runEventsFrom s (e :: evs) = runEventsFrom (stepEvent s e) evs :=
      rfl
    rw [hrw]
    have h3 : (submittedOf (e :: evs)).count t
        = (submittedOf [e]).count t + (submittedOf evs).count t := by
      cases e <;> simp [submittedOf, List.count_cons, List.count_nil] <;> omega
    omega

theorem runEvents_ledger_nodup (evs : List RunEvent)
    (hs : (submittedOf evs).Nodup) : (ledger (runEvents evs)).Nodup := by
  rw [List.nodup_iff_count_le_one] at hs ⊢
  intro a
  have h1 := runEventsFrom_count evs ExecState.init a
  have h2 : (ledger ExecState.init).count a = 0 := rfl
  have h3 := hs a
  calc (ledger (runEvents evs)).count a
      ≤ (ledger ExecState.init).count a + (submittedOf evs).count a :=
        h1
    _ ≤ 1 := by omega

theorem runEventsFrom_complete (evs : List RunEvent) (s : ExecState)
    (hnd : RunEvent.destroyEv ∉ evs) (hdes : s.destroyed = false) :
    (runEventsFrom s evs).destroyed = false
    ∧ (runEventsFrom s evs).dropped = s.dropped
    ∧ (runEventsFrom s evs).executed.length + (runEventsFrom s evs).queue.length
      = s.executed.length + s.queue.length + (submittedOf evs).length := by
  induction evs generalizing s with
  | nil => simp [runEventsFrom, submittedOf, hdes]
  | cons e evs ih =>
    have hne : e ≠ RunEvent.destroyEv ∧ RunEvent.destroyEv ∉ evs := by
      constructor
      · intro hcontra
        exact hnd (hcontra ▸ List.mem_cons_self e evs)
      · intro hcontra
        exact hnd (List.mem_cons_of_mem e hcontra)
    have hrw : runEventsFrom s (e :: evs) = runEventsFrom (stepEvent s e) evs :=
      rfl
    rw [hrw]
    cases e with
    | submitEv u =>
      rw [show stepEvent s (RunEvent.submitEv u)
          = { s with queue := s.queue ++ [u] } by simp [stepEvent, hdes]]
      obtain ⟨d1, d2, d3⟩ := ih { s with queue := s.queue ++ [u] } hne.2 hdes
      refine ⟨d1, d2, ?_⟩
      simp only [List.length_append, List.length_cons, List.length_nil] at d3
      simp only [submittedOf, List.length_cons]
      omega
    | execEv =>
      cases hq : s.queue with
      | nil =>
        rw [show stepEvent s RunEvent.execEv = s by simp [stepEvent, hdes, hq]]
        obtain ⟨d1, d2, d3⟩ := ih s hne.2 hdes
        refine ⟨d1, d2, ?_⟩
        rw [hq] at d3
        simp only [submittedOf, List.length_nil] at d3 ⊢
        omega
      | cons x xs =>
        rw [show stepEvent s RunEvent.execEv
            = { s with queue := xs, executed := s.executed ++ [x] } by
          simp [stepEvent, hdes, hq]]
        obtain ⟨d1, d2, d3⟩ :=
          ih { s with queue := xs, executed := s.executed ++ [x] } hne.2 hdes
        refine ⟨d1, d2, ?_⟩
        simp only [List.length_append, List.length_cons, List.length_nil] at d3
        simp only [submittedOf, hq, List.length_cons]
        omega
    | destroyEv => exact absurd rfl hne.1

/-- C1: for every lifecycle trace submitting distinct Tasks, no individual
Task is executed more than once, a Task still queued when the pool is
destroyed is dropped and never executed, and along a trace whose shutdown
completes with the queue drained and no destruction-with-pending, exactly
N task executions occur for N submissions. -/
theorem tasks_execute_exactly_once (evs evs2 : List RunEvent)
    (hs : (submittedOf evs).Nodup)
    (hnd : RunEvent.destroyEv ∉ evs2)
    (hq : (runEvents evs2).queue = []) :
    (runEvents evs).executed.Nodup
    ∧ (∀ x ∈ (runEvents evs).dropped, x ∉ (runEvents evs).executed)
    ∧ (runEvents evs2).executed.length = (submittedOf evs2).length := by
  have hled := runEvents_ledger_nodup evs hs
  have hled' : ((runEvents evs).executed
      ++ ((runEvents evs).queue ++ (runEvents evs).dropped)).Nodup := by
    simpa [ledger, List.append_assoc] using hled
  refine ⟨hled'.of_append_left, ?_, ?_⟩
  · intro x hxd hxe
    exact (List.disjoint_of_nodup_append hled') hxe
      (List.mem_append_right _ hxd)
  · obtain ⟨d1, d2, d3⟩ :=
      runEventsFrom_complete evs2 ExecState.init hnd rfl
    have hq' : (runEvents evs2).queue.length = 0 := by
      rw [hq]
      rfl
    have hinit : (ExecState.init.executed.length + ExecState.init.queue.length)
        = 0 := rfl
    simp only [runEvents] at d3 hq' ⊢
    omega

/-- Witness for C1: a trace that executes one of two submitted tasks and is
then destroyed (dropping the other), and a completed-shutdown trace that
executes both submitted tasks. -/
theorem tasks_execute_exactly_once_witness :
    (runEvents [RunEvent.submitEv 0, RunEvent.submitEv 1, RunEvent.execEv,
        RunEvent.destroyEv]).executed.Nodup
    ∧ (∀ x ∈ (runEvents [RunEvent.submitEv 0, RunEvent.submitEv 1,
        RunEvent.execEv, RunEvent.destroyEv]).dropped,
        x ∉ (runEvents [RunEvent.submitEv 0, RunEvent.submitEv 1,
          RunEvent.execEv, RunEvent.destroyEv]).executed)
    ∧ (runEvents [RunEvent.submitEv 0, RunEvent.submitEv 1, RunEvent.execEv,
        RunEvent.execEv]).executed.length
      = (submittedOf [RunEvent.submitEv 0, RunEvent.submitEv 1,
          RunEvent.execEv, RunEvent.execEv]).length :=
  tasks_execute_exactly_once
    [RunEvent.submitEv 0, RunEvent.submitEv 1, RunEvent.execEv,
      RunEvent.destroyEv]
    [RunEvent.submitEv 0, RunEvent.submitEv 1, RunEvent.execEv,
      RunEvent.execEv]
    (by decide) (by decide) (by decide)

/-- C9: for every callable `func` and argument list `args`,
`emplace_task(func, args...)` and `enqueue_task(func, args...)` are
observably equivalent: each binds `func` to `args` into a `std::function`
and appends exactly that one task to the back of the shared queue, leaving
the pool in the same resulting state. -/
theorem emplace_enqueue_equivalent (p : thread_pool F A) (func : F)
    (args : A) :
    emplace_task p func args = enqueue_task p func args
    ∧ (emplace_task p func args).queue = p.queue ++ [BoundTask.mk func args]
    ∧ (enqueue_task p func args).queue = p.queue ++ [BoundTask.mk func args] :=
  ⟨rfl, rfl, rfl⟩

/-- C10: the bounds `min_threads_` and `max_threads_` are immutable after
construction (every submission preserves them, as the `const` qualifiers
demand), and every submission via `emplace_task` or `enqueue_task` modifies
only the task queue by appending one element at the back, leaving all
previously queued tasks and every other field of the pool unchanged. -/
theorem submission_frame (p : thread_pool F A) (func : F) (args : A) :
    (emplace_task p func args).min_threads_ = p.min_threads_
    ∧ (emplace_task p func args).max_threads_ = p.max_threads_
    ∧ (emplace_task p func args).pool = p.pool
    ∧ (emplace_task p func args).queue
        = p.queue ++ [BoundTask.mk func args]
    ∧ (enqueue_task p func args).min_threads_ = p.min_threads_
    ∧ (enqueue_task p func args).max_threads_ = p.max_threads_
    ∧ (enqueue_task p func args).pool = p.pool
    ∧ (enqueue_task p func args).queue
        = p.queue ++ [BoundTask.mk func args] :=
  ⟨rfl, rfl, rfl, rfl, rfl, rfl, rfl, rfl⟩

/-- C7: for every pool, calling `shutdown()` twice yields the same
externally observable effect as calling it once: the second call is a
no-op on the controller state. -/
theorem shutdown_idempotent (p : PoolCtrl) :
    shutdown (shutdown p) = shutdown p := by
  simp [shutdown]

/-- C4: for every pair `(min_threads, max_threads)`, pool construction
succeeds — spawning `min_threads` Workers — if and only if
`0 < min_threads ≤ max_threads`; otherwise it fails with a configuration
error and no pool is created. -/
theorem construct_validates (m M : Nat) :
    (construct m M = Except.ok (PoolCtrl.mk m M m false [] [] [])
      ↔ 0 < m ∧ m ≤ M)
    ∧ (construct m M = Except.error PoolError.ConfigurationError
      ↔ ¬(0 < m ∧ m ≤ M)) := by
  by_cases h : 0 < m ∧ m ≤ M <;> simp [construct, h]

/-- C8: for every pool state with a live Worker count strictly below
`max_threads`, `create_thread()` spawns exactly one additional Worker and
reports no error; for every pool state at or above `max_threads`, it is a
no-op that reports the non-fatal `CapacityExhausted` condition, leaving the
Worker set unchanged. -/
theorem create_thread_spec (p : PoolCtrl) (h : p.workers < p.max_threads)
    (q : PoolCtrl) (hq : q.max_threads ≤ q.workers) :
    create_thread p = ({ p with workers := p.workers + 1 }, none)
    ∧ create_thread q = (q, some PoolError.CapacityExhausted) := by
  refine ⟨by simp [create_thread, h], ?_⟩
  have hq' : ¬ q.workers < q.max_threads := Nat.not_lt.mpr hq
  simp [create_thread, hq']

/-- Witness for C8 at concrete pools with bounds `[1, 4]` and live counts
2 (below capacity) and 4 (at capacity). -/
theorem create_thread_spec_witness :
    create_thread (PoolCtrl.mk 1 4 2 false [] [] [])
      = (PoolCtrl.mk 1 4 3 false [] [] [], none)
    ∧ create_thread (PoolCtrl.mk 1 4 4 false [] [] [])
      = (PoolCtrl.mk 1 4 4 false [] [] [],
         some PoolError.CapacityExhausted) :=
  create_thread_spec (PoolCtrl.mk 1 4 2 false [] [] []) (by decide)
    (PoolCtrl.mk 1 4 4 false [] [] []) (by decide)

theorem applyPoolOp_bounds (p : PoolCtrl) (op : PoolOp)
    (hlo : p.min_threads ≤ p.workers) (hhi : p.workers ≤ p.max_threads) :
    (applyPoolOp p op).min_threads = p.min_threads
    ∧ (applyPoolOp p op).max_threads = p.max_threads
    ∧ p.min_threads ≤ (applyPoolOp p op).workers
    ∧ (applyPoolOp p op).workers ≤ p.max_threads := by
  cases op with
  | createThread =>
    simp only [applyPoolOp, create_thread]
    by_cases h : p.workers < p.max_threads <;> simp [h] <;> omega
  | destroyThread =>
    simp only [applyPoolOp, destroy_thread]
    by_cases h : p.min_threads < p.workers <;> simp [h] <;> omega
  | submitOp t => simp [applyPoolOp, submit, hlo, hhi]
  | consumeOp =>
    simp only [applyPoolOp, consumeOne]
    cases hp : p.pending <;> simp [hlo, hhi]

theorem runCtrl_bounds (ops : List PoolOp) (p : PoolCtrl)
    (hlo : p.min_threads ≤ p.workers) (hhi : p.workers ≤ p.max_threads) :
    (runCtrl p ops).min_threads = p.min_threads
    ∧ (runCtrl p ops).max_threads = p.max_threads
    ∧ p.min_threads ≤ (runCtrl p ops).workers
    ∧ (runCtrl p ops).workers ≤ p.max_threads := by
  induction ops generalizing p with
  | nil => exact ⟨rfl, rfl, hlo, hhi⟩
  | cons op ops ih =>
    obtain ⟨e1, e2, l1, l2⟩ := applyPoolOp_bounds p op hlo hhi
    obtain ⟨f1, f2, g1, g2⟩ :=
      ih (applyPoolOp p op) (by rw [e1]; exact l1) (by rw [e2]; exact l2)
    have hrw : runCtrl p (op :: ops) = runCtrl (applyPoolOp p op) ops := rfl
    rw [hrw]
    omega

/-- C3: for every pool constructed with bounds `(min_threads, max_threads)`,
in every state reachable by running-phase controller operations the number
of live Workers lies in `[min_threads, max_threads]`, and after a completed
teardown it is 0. -/
theorem worker_count_bounds (m M : Nat) (p₀ : PoolCtrl)
    (h : construct m M = Except.ok p₀) (ops : List PoolOp) :
    m ≤ (runCtrl p₀ ops).workers
    ∧ (runCtrl p₀ ops).workers ≤ M
    ∧ (shutdown (runCtrl p₀ ops)).workers = 0 := by
  have hp : p₀ = PoolCtrl.mk m M m false [] [] [] ∧ 0 < m ∧ m ≤ M := by
    by_cases hc : 0 < m ∧ m ≤ M
    · simp only [construct, if_pos hc] at h
      cases h
      exact ⟨rfl, hc⟩
    · simp only [construct, if_neg hc] at h
      cases h
  obtain ⟨hp0, hm, hmM⟩ := hp
  subst hp0
  obtain ⟨f1, f2, g1, g2⟩ :=
    runCtrl_bounds ops (PoolCtrl.mk m M m false [] [] []) (Nat.le_refl m) hmM
  exact ⟨g1, g2, rfl⟩

/-- Witness for C3: a pool constructed with bounds `[2, 4]` run through one
thread creation and one thread destruction stays in bounds, and teardown
leaves 0 live Workers. -/
theorem worker_count_bounds_witness :
    2 ≤ (runCtrl (PoolCtrl.mk 2 4 2 false [] [] [])
          [PoolOp.createThread, PoolOp.destroyThread]).workers
    ∧ (runCtrl (PoolCtrl.mk 2 4 2 false [] [] [])
          [PoolOp.createThread, PoolOp.destroyThread]).workers ≤ 4
    ∧ (shutdown (runCtrl (PoolCtrl.mk 2 4 2 false [] [] [])
          [PoolOp.createThread, PoolOp.destroyThread])).workers = 0 :=
  worker_count_bounds 2 4 (PoolCtrl.mk 2 4 2 false [] [] []) rfl
    [PoolOp.createThread, PoolOp.destroyThread]

/-- C6: for every Task whose callable raises an error during invocation,
the error is caught at the Task/Worker boundary and reported through the
pool-wide failure channel; it is never rethrown into the Worker loop and
never terminates the Worker thread, which continues processing subsequent
Tasks: across any task sequence the Worker's liveness is unchanged, every
task is invoked, and exactly the raised errors are reported, in order. -/
theorem task_failure_contained (w : WorkerState) (ts : List TaskOutcome) :
    (runWorker w ts).alive = w.alive
    ∧ (runWorker w ts).invoked = w.invoked + ts.length
    ∧ (runWorker w ts).reports = w.reports ++ errorsOf ts := by
  induction ts generalizing w with
  | nil => simp [runWorker, errorsOf]
  | cons t ts ih =>
    cases t with
    | ok =>
      have h := ih (execute_task w TaskOutcome.ok)
      simp only [runWorker, execute_task, errorsOf, List.length_cons] at h ⊢
      exact ⟨h.1, by omega, h.2.2⟩
    | err e =>
      have h := ih (execute_task w (TaskOutcome.err e))
      simp only [runWorker, execute_task, errorsOf, List.length_cons] at h ⊢
      refine ⟨h.1, by omega, ?_⟩
      rw [h.2.2]
      simp

end Thready
